import Mathlib

/-!
Verification development for the configuration-resolution and
command-routing subsystem of the vltpkg CLI, together with the SVG
aria-label parsing utility.

The repository ships the test suite of the config command and the file
src/gui/src/utils/parse-aria-label-from-svg.ts.  The implementation file
src/commands/config.ts is not part of the sources we were given, so the
config command (scope resolution, router, handlers) is modelled from the
specification, as the doc comments below record.  The aria-label parser
is embedded directly from its TypeScript source.
-/

namespace ConfigCmd

/-- Modelled from the spec: the ConfigScope enumeration of section 3 of
the spec (the missing file src/commands/config.ts defines the real one).
One of the two physical stores or the virtual merged view; default all. -/
inductive ConfigScope where
  | user
  | project
  | all
deriving DecidableEq, Repr

/-- Modelled from the spec: the default value of the scope option. -/
def defaultScope : ConfigScope := ConfigScope.all

/-- A JSON-serializable scalar value stored in a configuration store.
The spec leaves nested values an open question, so the model keeps the
top-level scalar shapes that its examples use. -/
inductive JVal where
  | str (s : String)
  | num (n : Int)
  | bool (b : Bool)
  | null
deriving DecidableEq, Repr

/-- Render a value the way a JS template literal would, for the
key=value lines of the list handler. -/
def JVal.display : JVal → String
  | JVal.str s => s
  | JVal.num n => toString n
  | JVal.bool b => if b then "true" else "false"
  | JVal.null => "null"

/-- JSON.stringify-equivalent serialization of a scalar value. -/
def JVal.stringify : JVal → String
  | JVal.str s => "\"" ++ s ++ "\""
  | JVal.num n => toString n
  | JVal.bool b => if b then "true" else "false"
  | JVal.null => "null"

/-- A ScopedStore: key/value mapping with a key order, one per physical
scope.  Kept as an association list so that key order is observable. -/
abbrev Store := List (String × JVal)

/-- Key lookup in a store, first binding wins. -/
def findKey (k : String) : Store → Option JVal
  | [] => none
  | (k2, v) :: rest => if k2 = k then some v else findKey k rest

/-- Modelled from the spec: the MergedView computed by the Scope
Resolver of src/commands/config.ts, project entries overlaid onto user
entries, last-write-wins per top-level key, key order as a JS object
spread would produce it (user keys first, project-only keys appended). -/
def mergeStores (u p : Store) : Store :=
  u.map (fun kv =>
    match findKey kv.1 p with
    | some v => (kv.1, v)
    | none => kv)
  ++ p.filter (fun kv => (findKey kv.1 u).isNone)

/-- Modelled from the spec: the store a value-reading handler of
src/commands/config.ts sees for a requested scope: the raw store for
user and project, the merged view for all. -/
def resolveStore : ConfigScope → Store → Store → Store
  | ConfigScope.user, u, _ => u
  | ConfigScope.project, _, p => p
  | ConfigScope.all, u, p => mergeStores u p

/-- Modelled from the spec: the structured cause a UsageError of
src/commands/config.ts carries: either the found/validOptions pair of
the router or an EUSAGE-style code. -/
inductive ErrCause where
  | subcommand (found : Option String) (validOptions : List String)
  | code (c : String)
deriving DecidableEq, Repr

/-- Modelled from the spec: a UsageError with its human message and its
structured cause, as thrown by src/commands/config.ts. -/
structure UsageErr where
  message : String
  cause : ErrCause
deriving DecidableEq, Repr

/-- Modelled from the spec: the canonical subcommand list of the router
of src/commands/config.ts, order fixed as the spec and the tests give
it. -/
def validOptions : List String :=
  ["get", "pick", "set", "delete", "list", "edit", "location"]

/-- Modelled from the spec: alias resolution of the router of
src/commands/config.ts: ls to list, del and rm to delete, anything
else unchanged. -/
def resolveAlias (s : String) : String :=
  if s = "ls" then "list"
  else if s = "del" then "delete"
  else if s = "rm" then "delete"
  else s

/-- The seven canonical subcommand handlers. -/
inductive Subcommand where
  | get
  | pick
  | set
  | del
  | list
  | edit
  | location
deriving DecidableEq, Repr

/-- Modelled from the spec: the Command Router of src/commands/config.ts;
pure dispatch of the first positional, aliases resolved before dispatch,
UsageError when the first positional is absent or unrecognized. -/
def route : List String → Except UsageErr Subcommand
  | [] =>
    Except.error
      ⟨"config command requires a subcommand",
        ErrCause.subcommand none validOptions⟩
  | s :: _ =>
    if resolveAlias s = "get" then Except.ok Subcommand.get
    else if resolveAlias s = "pick" then Except.ok Subcommand.pick
    else if resolveAlias s = "set" then Except.ok Subcommand.set
    else if resolveAlias s = "delete" then Except.ok Subcommand.del
    else if resolveAlias s = "list" then Except.ok Subcommand.list
    else if resolveAlias s = "edit" then Except.ok Subcommand.edit
    else if resolveAlias s = "location" then Except.ok Subcommand.location
    else
      Except.error
        ⟨"Unrecognized config command",
          ErrCause.subcommand (some s) validOptions⟩

/-- Whether the router recognizes a first positional: its alias
resolution lands in the canonical list. -/
def recognized (s : String) : Prop := resolveAlias s ∈ validOptions

instance (s : String) : Decidable (recognized s) := by
  unfold recognized; infer_instance

/-- Modelled from the spec: the tagged result a handler of
src/commands/config.ts produces, per the design note of section 9:
a picked mapping (values are none when absent from the scope), a plain
merged scalar (none when absent), a raw JSON string (none standing for
the literal undefined), a sequence of formatted lines, a filesystem
path, or no value for the side-effecting handlers. -/
inductive CmdResult where
  | obj (entries : List (String × Option JVal))
  | scalar (v : Option JVal)
  | json (s : Option String)
  | strs (xs : List String)
  | path (s : String)
  | done
deriving DecidableEq, Repr

/-- Modelled from the spec: the pick handler of src/commands/config.ts.
Zero keys: the entire resolved-scope object.  One or more keys: exactly
those keys, each mapped to its value in the resolved scope, the key kept
with value none when absent. -/
def pick (keys : List String) (scope : ConfigScope) (u p : Store) :
    List (String × Option JVal) :=
  let st := resolveStore scope u p
  match keys with
  | [] => st.map (fun kv => (kv.1, some kv.2))
  | _ => keys.map (fun k => (k, findKey k st))

/-- Modelled from the spec: the get handler of src/commands/config.ts.
Zero args or two or more args: pick semantics.  One empty arg: UsageError
Key is required with cause code EUSAGE.  One arg under scope all: the
merged value as a plain scalar.  One arg under scope user or project: the
JSON serialization of the raw per-scope value, the literal undefined when
absent. -/
def get (args : List String) (scope : ConfigScope) (u p : Store) :
    Except UsageErr CmdResult :=
  match args with
  | [] => Except.ok (CmdResult.obj (pick [] scope u p))
  | [k] =>
    if k = "" then
      Except.error ⟨"Key is required", ErrCause.code "EUSAGE"⟩
    else
      match scope with
      | ConfigScope.all =>
        Except.ok (CmdResult.scalar (findKey k (mergeStores u p)))
      | ConfigScope.user =>
        Except.ok (CmdResult.json ((findKey k u).map JVal.stringify))
      | ConfigScope.project =>
        Except.ok (CmdResult.json ((findKey k p).map JVal.stringify))
  | _ => Except.ok (CmdResult.obj (pick args scope u p))

/-- Modelled from the spec: the list handler of src/commands/config.ts:
one key=value line per entry of the resolved scope, in the key order of
the store. -/
def listCmd (scope : ConfigScope) (u p : Store) : List String :=
  (resolveStore scope u p).map (fun kv => kv.1 ++ "=" ++ kv.2.display)

/-- Modelled from the spec: the location handler of
src/commands/config.ts: the user store path for scope user, the project
store path for scope project and for scope all. -/
def location (scope : ConfigScope) (userPath projectPath : String) :
    String :=
  match scope with
  | ConfigScope.user => userPath
  | ConfigScope.project => projectPath
  | ConfigScope.all => projectPath

/-- The environment a command invocation reads: the two persisted
stores and their filesystem paths, supplied by the external Store
Accessor. -/
structure Env where
  userStore : Store
  projectStore : Store
  userPath : String
  projectPath : String
deriving Repr

/-- Modelled from the spec: one full invocation of the config command of
src/commands/config.ts: route the first positional, then dispatch the
remaining positionals to the handler; set, delete and edit only perform
delegated side effects and return no value. -/
def runCmd (positionals : List String) (scope : ConfigScope)
    (env : Env) : Except UsageErr CmdResult :=
  match route positionals with
  | Except.error e => Except.error e
  | Except.ok sub =>
    let args := positionals.tail
    match sub with
    | Subcommand.get => get args scope env.userStore env.projectStore
    | Subcommand.pick =>
      Except.ok (CmdResult.obj (pick args scope env.userStore env.projectStore))
    | Subcommand.set => Except.ok CmdResult.done
    | Subcommand.del => Except.ok CmdResult.done
    | Subcommand.list =>
      Except.ok (CmdResult.strs (listCmd scope env.userStore env.projectStore))
    | Subcommand.edit => Except.ok CmdResult.done
    | Subcommand.location =>
      Except.ok (CmdResult.path (location scope env.userPath env.projectPath))

/-- A value is traceable to the stores when it occurs in the user store
or in the project store. -/
def valueFromStores (v : JVal) (u p : Store) : Prop :=
  (∃ k, (k, v) ∈ u) ∨ (∃ k, (k, v) ∈ p)

end ConfigCmd

namespace AriaLabel

/-- A character the character class of digits and dot of the regex in
src/gui/src/utils/parse-aria-label-from-svg.ts accepts. -/
def isDigitOrDot (c : Char) : Bool := c.isDigit || c = '.'

/-- A whitespace character as ECMAScript sees it: the set matched by
the regex class for whitespace and stripped by trim, namely tab,
line feed, vertical tab, form feed, carriage return, space, no-break
space (code point 160), ogham space mark (5760), the space range 8192
to 8202, line separator (8232), paragraph separator (8233), narrow
no-break space (8239), medium mathematical space (8287), ideographic
space (12288) and the byte order mark (65279). -/
def isSpaceChar (c : Char) : Bool :=
  decide
    (c.toNat = 9 ∨ c.toNat = 10 ∨ c.toNat = 11 ∨ c.toNat = 12 ∨
      c.toNat = 13 ∨ c.toNat = 32 ∨ c.toNat = 160 ∨ c.toNat = 5760 ∨
      (8192 ≤ c.toNat ∧ c.toNat ≤ 8202) ∨ c.toNat = 8232 ∨
      c.toNat = 8233 ∨ c.toNat = 8239 ∨ c.toNat = 8287 ∨
      c.toNat = 12288 ∨ c.toNat = 65279)

/-- A k, m or b suffix character, case-insensitive. -/
def isKMB (c : Char) : Bool :=
  c = 'k' || c = 'm' || c = 'b' || c = 'K' || c = 'M' || c = 'B'

/-- The greedy match of the regex starting at a position whose first
character is a digit or dot: the maximal digit-or-dot run, then the
maximal whitespace run, then one suffix character when present. -/
def matchAt (l : List Char) : List Char :=
  match (l.dropWhile isDigitOrDot).dropWhile isSpaceChar with
  | c :: _ =>
    if isKMB c then
      l.takeWhile isDigitOrDot ++
        ((l.dropWhile isDigitOrDot).takeWhile isSpaceChar ++ [c])
    else
      l.takeWhile isDigitOrDot ++
        (l.dropWhile isDigitOrDot).takeWhile isSpaceChar
  | [] =>
    l.takeWhile isDigitOrDot ++
      (l.dropWhile isDigitOrDot).takeWhile isSpaceChar

/-- The exec of the regex: the leftmost match, none when no character of
the input is a digit or dot. -/
def findMatch : List Char → Option (List Char)
  | [] => none
  | c :: rest =>
    if isDigitOrDot c then some (matchAt (c :: rest)) else findMatch rest

/-- Trim as String.prototype.trim: drop whitespace from both ends,
using the same ECMAScript whitespace set as the regex class (the trim
set and the regex class coincide in ECMAScript). -/
def jsTrim (l : List Char) : List Char :=
  ((l.dropWhile isSpaceChar).reverse.dropWhile isSpaceChar).reverse

/-- Embedding of parseAriaLabelFromSVG of
src/gui/src/utils/parse-aria-label-from-svg.ts.  The DOM query
svgDoc.querySelector (svg) with getAttribute (aria-label) is an external
browser API; its outcome is the input here: none when the document has
no svg element or the attribute is missing, some s otherwise.  The
falsy check of the source maps the empty attribute to none as well;
then the regex exec and the trim of the matched text. -/
def parseAriaLabelFromSVG (ariaLabel : Option String) : Option String :=
  match ariaLabel with
  | none => none
  | some s =>
    if s = "" then none
    else
      match findMatch s.data with
      | none => none
      | some m => some (String.mk (jsTrim m))

end AriaLabel


namespace ConfigCmd

/-- A successful key lookup reports an entry of the store. -/
theorem findKey_mem {k : String} {v : JVal} :
    ∀ {s : Store}, findKey k s = some v → (k, v) ∈ s := by
  intro s
  induction s with
  | nil => intro h; simp [findKey] at h
  | cons kv rest ih =>
    intro h
    obtain ⟨k2, v2⟩ := kv
    by_cases hk : k2 = k
    · subst hk
      simp [findKey] at h
      simp [h]
    · simp only [findKey, if_neg hk] at h
      exact List.mem_cons_of_mem _ (ih h)

/-- Every entry of the merged view is an entry of the user store or of
the project store. -/
theorem mem_mergeStores {u p : Store} {k : String} {v : JVal}
    (h : (k, v) ∈ mergeStores u p) : (k, v) ∈ u ∨ (k, v) ∈ p := by
  unfold mergeStores at h
  rcases List.mem_append.mp h with h | h
  · rcases List.mem_map.mp h with ⟨kv, hkv, heq⟩
    cases hfk : findKey kv.1 p with
    | some w =>
      rw [hfk] at heq
      have hk : kv.1 = k := congrArg Prod.fst heq
      have hv : w = v := congrArg Prod.snd heq
      right
      exact findKey_mem (hk ▸ hv ▸ hfk)
    | none =>
      rw [hfk] at heq
      left
      exact heq ▸ hkv
  · right
    exact (List.mem_filter.mp h).1

/-- Every entry of a resolved scope is traceable to the stores. -/
theorem resolveStore_traceable {scope : ConfigScope} {u p : Store}
    {k : String} {v : JVal} (h : (k, v) ∈ resolveStore scope u p) :
    valueFromStores v u p := by
  cases scope with
  | user => exact Or.inl ⟨k, h⟩
  | project => exact Or.inr ⟨k, h⟩
  | all =>
    rcases mem_mergeStores h with h | h
    · exact Or.inl ⟨k, h⟩
    · exact Or.inr ⟨k, h⟩

/-- Every present value of a pick result is traceable to the stores. -/
theorem pick_traceable (keys : List String) (scope : ConfigScope)
    (u p : Store) :
    ∀ k v, (k, some v) ∈ pick keys scope u p → valueFromStores v u p := by
  intro k v h
  cases keys with
  | nil =>
    simp only [pick] at h
    rcases List.mem_map.mp h with ⟨kv, hkv, heq⟩
    have hk : kv.1 = k := congrArg Prod.fst heq
    have hv : some kv.2 = some v := congrArg Prod.snd heq
    have hv2 : kv.2 = v := Option.some.inj hv
    have hm : (k, v) ∈ resolveStore scope u p := by
      have hkv2 : kv = (k, v) := Prod.ext hk hv2
      exact hkv2 ▸ hkv
    exact resolveStore_traceable hm
  | cons a rest =>
    simp only [pick] at h
    rcases List.mem_map.mp h with ⟨k2, _, heq⟩
    have hk : k2 = k := congrArg Prod.fst heq
    have hv : findKey k2 (resolveStore scope u p) = some v :=
      congrArg Prod.snd heq
    exact resolveStore_traceable (findKey_mem (hk ▸ hv))

end ConfigCmd

namespace ConfigCmd

/-- Membership in the canonical list spelled out. -/
theorem recognized_iff (s : String) :
    recognized s ↔
      resolveAlias s = "get" ∨ resolveAlias s = "pick" ∨
      resolveAlias s = "set" ∨ resolveAlias s = "delete" ∨
      resolveAlias s = "list" ∨ resolveAlias s = "edit" ∨
      resolveAlias s = "location" := by
  simp [recognized, validOptions]

/-- An unrecognized first positional routes to the Unrecognized config
command error with the full canonical list. -/
theorem route_cons_unrecognized (s : String) (rest : List String)
    (h : ¬ recognized s) :
    route (s :: rest) =
      Except.error
        ⟨"Unrecognized config command",
          ErrCause.subcommand (some s) validOptions⟩ := by
  rw [recognized_iff] at h
  push_neg at h
  obtain ⟨h1, h2, h3, h4, h5, h6, h7⟩ := h
  simp [route, h1, h2, h3, h4, h5, h6, h7]

/-- A recognized first positional routes to some handler. -/
theorem route_cons_recognized (s : String) (rest : List String)
    (h : recognized s) :
    ∃ sub, route (s :: rest) = Except.ok sub := by
  rw [recognized_iff] at h
  unfold route
  rcases h with h | h | h | h | h | h | h <;> simp [h]

end ConfigCmd

namespace AriaLabel

/-- A digit-or-dot character is not a whitespace character: its code
point lies between 46 and 57, outside the whitespace set. -/
theorem not_space_of_digitOrDot {c : Char} (h : isDigitOrDot c = true) :
    isSpaceChar c = false := by
  have hv : 46 ≤ c.toNat ∧ c.toNat ≤ 57 := by
    simp only [isDigitOrDot, Bool.or_eq_true, decide_eq_true_eq] at h
    rcases h with h | h
    · simp only [Char.isDigit, Bool.and_eq_true, decide_eq_true_eq] at h
      obtain ⟨h1, h2⟩ := h
      have h1n : 48 ≤ c.toNat := UInt32.le_def.mp h1
      have h2n : c.toNat ≤ 57 := UInt32.le_def.mp h2
      exact ⟨by omega, h2n⟩
    · subst h
      exact ⟨by decide, by decide⟩
  obtain ⟨h1, h2⟩ := hv
  simp only [isSpaceChar, decide_eq_false_iff_not]
  omega

/-- The exec fails exactly when no character is a digit or dot. -/
theorem findMatch_eq_none_iff (l : List Char) :
    findMatch l = none ↔ ∀ c ∈ l, isDigitOrDot c = false := by
  induction l with
  | nil => simp [findMatch]
  | cons c rest ih =>
    by_cases h : isDigitOrDot c
    · simp [findMatch, h]
    · have hf : isDigitOrDot c = false := by
        cases hb : isDigitOrDot c
        · rfl
        · exact absurd hb h
      simp [findMatch, h, ih, hf]

/-- A greedy match at a digit-or-dot head starts with that head. -/
theorem matchAt_cons_pos (c : Char) (rest : List Char)
    (hc : isDigitOrDot c = true) :
    ∃ cs, matchAt (c :: rest) = c :: cs := by
  unfold matchAt
  cases hr2 :
      List.dropWhile isSpaceChar
        (List.dropWhile isDigitOrDot (c :: rest)) with
  | nil =>
    refine
      ⟨List.takeWhile isDigitOrDot rest ++
        List.takeWhile isSpaceChar
          (List.dropWhile isDigitOrDot (c :: rest)), ?_⟩
    simp [hr2, List.takeWhile_cons_of_pos hc]
  | cons d ds =>
    by_cases hd : isKMB d
    · refine
        ⟨List.takeWhile isDigitOrDot rest ++
          (List.takeWhile isSpaceChar
            (List.dropWhile isDigitOrDot (c :: rest)) ++ [d]), ?_⟩
      simp [hr2, hd, List.takeWhile_cons_of_pos hc]
    · refine
        ⟨List.takeWhile isDigitOrDot rest ++
          List.takeWhile isSpaceChar
            (List.dropWhile isDigitOrDot (c :: rest)), ?_⟩
      simp [hr2, hd, List.takeWhile_cons_of_pos hc]

/-- A successful exec produces a nonempty match headed by a digit or
dot. -/
theorem findMatch_some_head (l : List Char) (m : List Char)
    (h : findMatch l = some m) :
    ∃ c cs, m = c :: cs ∧ isDigitOrDot c = true := by
  induction l with
  | nil => simp [findMatch] at h
  | cons c rest ih =>
    by_cases hc : isDigitOrDot c
    · rw [findMatch, if_pos hc] at h
      obtain ⟨cs, hcs⟩ := matchAt_cons_pos c rest hc
      exact ⟨c, cs, by rw [← Option.some.inj h, hcs], hc⟩
    · rw [findMatch, if_neg hc] at h
      exact ih h

/-- Trimming a list headed by a non-space character never empties it. -/
theorem jsTrim_cons_ne_nil (c : Char) (t : List Char)
    (hc : isSpaceChar c = false) : jsTrim (c :: t) ≠ [] := by
  unfold jsTrim
  rw [List.dropWhile_cons_of_neg (by simp [hc])]
  intro h
  rw [List.reverse_eq_nil_iff, List.dropWhile_eq_nil_iff] at h
  have hmem : c ∈ (c :: t).reverse :=
    List.mem_reverse.mpr (List.mem_cons_self c t)
  have hct := h c hmem
  simp [hc] at hct

end AriaLabel

open ConfigCmd AriaLabel

/-- C1: for every scope and every argument list whose length is not
exactly 1, the get handler returns exactly the result of the pick
handler on the same arguments and scope: with zero args the full
resolved-scope object, and with two or more args an object keyed by
each requested key; at the command level such a get invocation equals
the pick invocation. -/
theorem claim_get_delegates_to_pick (args : List String)
    (scope : ConfigScope) (u p : Store) (env : Env)
    (h : args.length ≠ 1) :
    get args scope u p = Except.ok (CmdResult.obj (pick args scope u p))
    ∧ runCmd ("get" :: args) scope env = runCmd ("pick" :: args) scope env
    ∧ (args = [] →
        pick args scope u p =
          (resolveStore scope u p).map (fun kv => (kv.1, some kv.2)))
    ∧ (2 ≤ args.length → (pick args scope u p).map Prod.fst = args) := by
  rcases args with _ | ⟨a, _ | ⟨b, rest⟩⟩
  · exact ⟨rfl, rfl, fun _ => rfl, fun h2 => by simp at h2⟩
  · exact absurd rfl h
  · refine ⟨rfl, rfl, fun h2 => by simp at h2, fun _ => ?_⟩
    show ((a :: b :: rest).map
        (fun k => (k, findKey k (resolveStore scope u p)))).map Prod.fst =
      a :: b :: rest
    rw [List.map_map]
    exact List.map_id _

/-- Witness for C1 at a two-key argument list. -/
theorem claim_get_delegates_to_pick_witness :
    get ["a", "b"] ConfigScope.all [] [] =
      Except.ok (CmdResult.obj (pick ["a", "b"] ConfigScope.all [] [])) :=
  (claim_get_delegates_to_pick ["a", "b"] ConfigScope.all [] []
    ⟨[], [], "u", "p"⟩ (by decide)).1

/-- C2: for every non-empty key k, get with the single argument k under
scope all returns the same value that pick maps k to under scope all,
as a plain scalar and not JSON-wrapped. -/
theorem claim_get_single_all_matches_pick (k : String) (u p : Store)
    (h : k ≠ "") :
    get [k] ConfigScope.all u p =
      Except.ok (CmdResult.scalar (findKey k (mergeStores u p)))
    ∧ pick [k] ConfigScope.all u p =
      [(k, findKey k (mergeStores u p))] := by
  constructor
  · simp [ConfigCmd.get, h]
  · simp [pick, resolveStore]

/-- Witness for C2 at a store holding one key. -/
theorem claim_get_single_all_matches_pick_witness :
    get ["a"] ConfigScope.all [("a", JVal.num 1)] [] =
      Except.ok (CmdResult.scalar (some (JVal.num 1)))
    ∧ pick ["a"] ConfigScope.all [("a", JVal.num 1)] [] =
      [("a", some (JVal.num 1))] := by
  have h :=
    claim_get_single_all_matches_pick "a" [("a", JVal.num 1)] []
      (by decide)
  exact ⟨h.1, h.2⟩

/-- C3: for every non-empty key k and a raw scope, get with the single
argument k returns the JSON serialization of the raw per-scope value;
when k is absent from that store the result is the literal undefined
(the none payload), which differs from the serialized string
undefined. -/
theorem claim_get_single_raw_json (k : String) (u p : Store)
    (h : k ≠ "") :
    get [k] ConfigScope.user u p =
      Except.ok (CmdResult.json ((findKey k u).map JVal.stringify))
    ∧ get [k] ConfigScope.project u p =
      Except.ok (CmdResult.json ((findKey k p).map JVal.stringify))
    ∧ (findKey k u = none →
        get [k] ConfigScope.user u p = Except.ok (CmdResult.json none))
    ∧ (findKey k p = none →
        get [k] ConfigScope.project u p = Except.ok (CmdResult.json none))
    ∧ CmdResult.json none ≠ CmdResult.json (some "undefined") := by
  refine ⟨by simp [ConfigCmd.get, h], by simp [ConfigCmd.get, h],
    fun hn => by simp [ConfigCmd.get, h, hn],
    fun hn => by simp [ConfigCmd.get, h, hn], by simp⟩

/-- Witness for C3 at a user store holding a string value. -/
theorem claim_get_single_raw_json_witness :
    get ["a"] ConfigScope.user [("a", JVal.str "x")] [] =
      Except.ok (CmdResult.json (some "\"x\""))
    ∧ get ["b"] ConfigScope.user [("a", JVal.str "x")] [] =
      Except.ok (CmdResult.json none) := by
  have h1 :=
    claim_get_single_raw_json "a" [("a", JVal.str "x")] [] (by decide)
  have h2 :=
    claim_get_single_raw_json "b" [("a", JVal.str "x")] [] (by decide)
  exact ⟨h1.1, h2.2.2.1 rfl⟩

/-- C4: the command router fails with a UsageError exactly when the
first positional is absent or unrecognized; when absent the message is
config command requires a subcommand with found none, when unrecognized
the message is Unrecognized config command with the found string, and
both errors carry the canonical validOptions list in its fixed order. -/
theorem claim_router_usage_error (ps : List String) :
    ((∃ e, route ps = Except.error e) ↔
      ps = [] ∨ ∃ s rest, ps = s :: rest ∧ ¬ recognized s)
    ∧ (ps = [] →
        route ps =
          Except.error
            ⟨"config command requires a subcommand",
              ErrCause.subcommand none validOptions⟩)
    ∧ (∀ s rest, ps = s :: rest → ¬ recognized s →
        route ps =
          Except.error
            ⟨"Unrecognized config command",
              ErrCause.subcommand (some s) validOptions⟩) := by
  refine ⟨?_, fun h => by subst h; rfl,
    fun s rest heq hr => by subst heq; exact route_cons_unrecognized s rest hr⟩
  cases ps with
  | nil => simp [route]
  | cons s rest =>
    constructor
    · rintro ⟨e, he⟩
      by_cases hr : recognized s
      · obtain ⟨sub, hsub⟩ := route_cons_recognized s rest hr
        rw [hsub] at he
        exact Except.noConfusion he
      · exact Or.inr ⟨s, rest, rfl, hr⟩
    · rintro (h | ⟨s2, rest2, heq, hr⟩)
      · exact List.noConfusion h
      · injection heq with h1 h2
        subst h1
        exact ⟨_, route_cons_unrecognized s rest hr⟩

/-- Witness for C4 at an unrecognized subcommand. -/
theorem claim_router_usage_error_witness :
    route ["invalid"] =
      Except.error
        ⟨"Unrecognized config command",
          ErrCause.subcommand (some "invalid") validOptions⟩ :=
  (claim_router_usage_error ["invalid"]).2.2 "invalid" [] rfl (by decide)

/-- C5: under every scope, every value in a get, pick or list result is
traceable to the user store, the project store, or the deterministic
merge of both, never to a third source. -/
theorem claim_values_traceable (scope : ConfigScope) (u p : Store) :
    (∀ k v, (k, v) ∈ resolveStore scope u p → valueFromStores v u p)
    ∧ (∀ keys k v, (k, some v) ∈ pick keys scope u p →
        valueFromStores v u p)
    ∧ (∀ args res, get args scope u p = Except.ok res →
        (∀ es k v, res = CmdResult.obj es → (k, some v) ∈ es →
          valueFromStores v u p)
        ∧ (∀ v, res = CmdResult.scalar (some v) → valueFromStores v u p)
        ∧ (∀ s, res = CmdResult.json (some s) →
            ∃ v, valueFromStores v u p ∧ s = JVal.stringify v))
    ∧ (∀ x, x ∈ listCmd scope u p →
        ∃ k v, (k, v) ∈ resolveStore scope u p ∧
          x = k ++ "=" ++ JVal.display v) := by
  refine ⟨fun k v h => resolveStore_traceable h,
    fun keys k v h => pick_traceable keys scope u p k v h, ?_, ?_⟩
  · intro args res hres
    revert hres
    rcases args with _ | ⟨a, _ | ⟨b, rest⟩⟩
    · intro hres
      have h2 : CmdResult.obj (pick [] scope u p) = res := by
        injection hres
      subst h2
      refine ⟨?_, ?_, ?_⟩
      · intro es k v hes hmem
        injection hes with hes2
        subst hes2
        exact pick_traceable [] scope u p k v hmem
      · intro v hv; exact CmdResult.noConfusion hv
      · intro s hs; exact CmdResult.noConfusion hs
    · intro hres
      by_cases hk : a = ""
      · subst hk
        simp [ConfigCmd.get] at hres
      · cases scope with
        | all =>
          have h2 : CmdResult.scalar (findKey a (mergeStores u p)) = res := by
            simpa [ConfigCmd.get, hk] using hres
          subst h2
          refine ⟨?_, ?_, ?_⟩
          · intro es k v hes hmem; exact CmdResult.noConfusion hes
          · intro v hv
            injection hv with hv2
            rcases mem_mergeStores (findKey_mem hv2) with h | h
            · exact Or.inl ⟨a, h⟩
            · exact Or.inr ⟨a, h⟩
          · intro s hs; exact CmdResult.noConfusion hs
        | user =>
          have h2 :
              CmdResult.json ((findKey a u).map JVal.stringify) = res := by
            simpa [ConfigCmd.get, hk] using hres
          subst h2
          refine ⟨?_, ?_, ?_⟩
          · intro es k v hes hmem; exact CmdResult.noConfusion hes
          · intro v hv; exact CmdResult.noConfusion hv
          · intro s hs
            injection hs with hs2
            rcases Option.map_eq_some'.mp hs2 with ⟨v, hv, hsv⟩
            exact ⟨v, Or.inl ⟨a, findKey_mem hv⟩, hsv.symm⟩
        | project =>
          have h2 :
              CmdResult.json ((findKey a p).map JVal.stringify) = res := by
            simpa [ConfigCmd.get, hk] using hres
          subst h2
          refine ⟨?_, ?_, ?_⟩
          · intro es k v hes hmem; exact CmdResult.noConfusion hes
          · intro v hv; exact CmdResult.noConfusion hv
          · intro s hs
            injection hs with hs2
            rcases Option.map_eq_some'.mp hs2 with ⟨v, hv, hsv⟩
            exact ⟨v, Or.inr ⟨a, findKey_mem hv⟩, hsv.symm⟩
    · intro hres
      have h2 : CmdResult.obj (pick (a :: b :: rest) scope u p) = res := by
        injection hres
      subst h2
      refine ⟨?_, ?_, ?_⟩
      · intro es k v hes hmem
        injection hes with hes2
        subst hes2
        exact pick_traceable (a :: b :: rest) scope u p k v hmem
      · intro v hv; exact CmdResult.noConfusion hv
      · intro s hs; exact CmdResult.noConfusion hs
  · intro x hx
    rcases List.mem_map.mp hx with ⟨kv, hkv, hxeq⟩
    exact ⟨kv.1, kv.2, hkv, hxeq.symm⟩

/-- Witness for C5 at a one-entry user store. -/
theorem claim_values_traceable_witness :
    valueFromStores (JVal.num 1) [("a", JVal.num 1)] [] :=
  (claim_values_traceable ConfigScope.user [("a", JVal.num 1)] []).1
    "a" (JVal.num 1) (by simp [resolveStore])

/-- C6: under every remaining argument list, scope and environment, the
subcommand ls runs exactly as list, and del and rm run exactly as
delete; the aliases are resolved before dispatch to a canonical
handler, and the canonical list excludes the aliases. -/
theorem claim_alias_equivalence (rest : List String)
    (scope : ConfigScope) (env : Env) :
    runCmd ("ls" :: rest) scope env = runCmd ("list" :: rest) scope env
    ∧ runCmd ("del" :: rest) scope env = runCmd ("delete" :: rest) scope env
    ∧ runCmd ("rm" :: rest) scope env = runCmd ("delete" :: rest) scope env
    ∧ route ("ls" :: rest) = Except.ok Subcommand.list
    ∧ route ("del" :: rest) = Except.ok Subcommand.del
    ∧ route ("rm" :: rest) = Except.ok Subcommand.del
    ∧ resolveAlias "ls" = "list" ∧ resolveAlias "del" = "delete"
    ∧ resolveAlias "rm" = "delete"
    ∧ "ls" ∉ validOptions ∧ "del" ∉ validOptions ∧ "rm" ∉ validOptions := by
  refine ⟨rfl, rfl, rfl, rfl, rfl, rfl, rfl, rfl, rfl, ?_, ?_, ?_⟩ <;>
    decide

/-- Witness for C6 at a concrete environment. -/
theorem claim_alias_equivalence_witness :
    runCmd ["ls"] ConfigScope.all
        ⟨[("a", JVal.num 1)], [], "u", "p"⟩ =
      runCmd ["list"] ConfigScope.all
        ⟨[("a", JVal.num 1)], [], "u", "p"⟩ :=
  (claim_alias_equivalence [] ConfigScope.all
    ⟨[("a", JVal.num 1)], [], "u", "p"⟩).1

/-- C7: under every scope, get invoked with exactly one empty-string
argument fails with the UsageError Key is required whose cause carries
the code EUSAGE. -/
theorem claim_get_empty_key_usage_error (scope : ConfigScope)
    (u p : Store) (env : Env) :
    get [""] scope u p =
      Except.error ⟨"Key is required", ErrCause.code "EUSAGE"⟩
    ∧ runCmd ["get", ""] scope env =
      Except.error ⟨"Key is required", ErrCause.code "EUSAGE"⟩ :=
  ⟨rfl, rfl⟩

/-- Witness for C7 at scope user. -/
theorem claim_get_empty_key_usage_error_witness :
    runCmd ["get", ""] ConfigScope.user ⟨[], [], "u", "p"⟩ =
      Except.error ⟨"Key is required", ErrCause.code "EUSAGE"⟩ :=
  (claim_get_empty_key_usage_error ConfigScope.user [] []
    ⟨[], [], "u", "p"⟩).2

/-- C8: the location handler returns the user store path under scope
user and the project store path under scope project and under scope
all; with the scope omitted (the default all) it returns the same path
as scope project. -/
theorem claim_location_paths (env : Env) :
    runCmd ["location"] ConfigScope.user env =
      Except.ok (CmdResult.path env.userPath)
    ∧ runCmd ["location"] ConfigScope.project env =
      Except.ok (CmdResult.path env.projectPath)
    ∧ runCmd ["location"] ConfigScope.all env =
      Except.ok (CmdResult.path env.projectPath)
    ∧ runCmd ["location"] defaultScope env =
      runCmd ["location"] ConfigScope.project env :=
  ⟨rfl, rfl, rfl, rfl⟩

/-- Witness for C8 at the paths the tests use. -/
theorem claim_location_paths_witness :
    runCmd ["location"] defaultScope
        ⟨[], [], "/home/user/.config/vlt/vlt.json", "/project/vlt.json"⟩ =
      Except.ok (CmdResult.path "/project/vlt.json") :=
  ((claim_location_paths
    ⟨[], [], "/home/user/.config/vlt/vlt.json", "/project/vlt.json"⟩).2.2.2).trans
    ((claim_location_paths
      ⟨[], [], "/home/user/.config/vlt/vlt.json", "/project/vlt.json"⟩).2.1)

/-- C9: under every scope, the list handler returns one key=value line
per entry of the resolved scope, in the key order of that store, and an
empty resolved store yields the empty sequence rather than an error. -/
theorem claim_list_lines (scope : ConfigScope) (env : Env) :
    runCmd ["list"] scope env =
      Except.ok (CmdResult.strs
        ((resolveStore scope env.userStore env.projectStore).map
          (fun kv => kv.1 ++ "=" ++ kv.2.display)))
    ∧ (listCmd scope env.userStore env.projectStore).length =
        (resolveStore scope env.userStore env.projectStore).length
    ∧ (resolveStore scope env.userStore env.projectStore = [] →
        runCmd ["list"] scope env = Except.ok (CmdResult.strs [])) := by
  refine ⟨rfl, by simp [listCmd], fun h => ?_⟩
  have h1 : runCmd ["list"] scope env =
      Except.ok
        (CmdResult.strs (listCmd scope env.userStore env.projectStore)) :=
    rfl
  rw [h1]
  simp [listCmd, h]

/-- Witness for C9: the two-entry example store of the spec and the
empty store. -/
theorem claim_list_lines_witness :
    runCmd ["list"] ConfigScope.all
        ⟨[("a", JVal.num 1), ("b", JVal.num 2)], [], "u", "p"⟩ =
      Except.ok (CmdResult.strs ["a=1", "b=2"])
    ∧ runCmd ["list"] ConfigScope.user ⟨[], [], "u", "p"⟩ =
      Except.ok (CmdResult.strs []) := by
  constructor
  · have h :=
      (claim_list_lines ConfigScope.all
        ⟨[("a", JVal.num 1), ("b", JVal.num 2)], [], "u", "p"⟩).1
    rw [h]
    rfl
  · exact
      (claim_list_lines ConfigScope.user ⟨[], [], "u", "p"⟩).2.2 rfl

/-- C10: parseAriaLabelFromSVG totally returns an Option: none exactly
when the DOM query yields no aria-label text, the text is empty, or no
character of the text is a digit or dot; otherwise it returns the
trimmed first regex match, and a returned string is never empty. -/
theorem claim_parse_aria_label (al : Option String) :
    (parseAriaLabelFromSVG al = none ↔
      al = none ∨ al = some "" ∨
        ∀ s, al = some s → ∀ c ∈ s.data, isDigitOrDot c = false)
    ∧ (∀ s, al = some s → s ≠ "" →
        parseAriaLabelFromSVG al =
          (findMatch s.data).map (fun m => String.mk (jsTrim m)))
    ∧ (∀ r, parseAriaLabelFromSVG al = some r → r ≠ "") := by
  refine ⟨?_, ?_, ?_⟩
  · cases al with
    | none => simp [parseAriaLabelFromSVG]
    | some s =>
      by_cases hs : s = ""
      · subst hs
        simp [parseAriaLabelFromSVG]
      · simp only [parseAriaLabelFromSVG, if_neg hs]
        cases hm : findMatch s.data with
        | none =>
          simp only [hm]
          constructor
          · intro _
            refine Or.inr (Or.inr ?_)
            intro s2 hs2 c hc
            have hss : s2 = s := (Option.some.inj hs2).symm
            subst hss
            exact (findMatch_eq_none_iff s2.data).mp hm c hc
          · intro _; trivial
        | some m =>
          simp only [hm]
          constructor
          · intro h; exact Option.noConfusion h
          · rintro (h | h | h)
            · exact Option.noConfusion h
            · exact absurd (Option.some.inj h) hs
            · have hnone : findMatch s.data = none :=
                (findMatch_eq_none_iff s.data).mpr (h s rfl)
              rw [hnone] at hm
              exact Option.noConfusion hm
  · intro s hseq hne
    subst hseq
    simp only [parseAriaLabelFromSVG, if_neg hne]
    cases hm : findMatch s.data <;> simp [hm]
  · intro r hr
    cases al with
    | none => simp [parseAriaLabelFromSVG] at hr
    | some s =>
      by_cases hs : s = ""
      · subst hs
        simp [parseAriaLabelFromSVG] at hr
      · simp only [parseAriaLabelFromSVG, if_neg hs] at hr
        cases hm : findMatch s.data with
        | none => simp [hm] at hr
        | some m =>
          simp only [hm] at hr
          have hr2 : String.mk (jsTrim m) = r := Option.some.inj hr
          obtain ⟨c, cs, hmcs, hc⟩ := findMatch_some_head s.data m hm
          subst hmcs
          have hnil : jsTrim (c :: cs) ≠ [] :=
            jsTrim_cons_ne_nil c cs (not_space_of_digitOrDot hc)
          intro hre
          rw [hre] at hr2
          have hdata : jsTrim (c :: cs) = [] := by
            have := congrArg String.data hr2
            simpa using this
          exact hnil hdata

/-- Witness for C10: a realistic aria-label with a suffixed count. -/
theorem claim_parse_aria_label_witness :
    "1.2 K" ≠ ""
    ∧ parseAriaLabelFromSVG (some "views: 1.2 K total") = some "1.2 K" := by
  constructor
  · exact
      (claim_parse_aria_label (some "views: 1.2 K total")).2.2 "1.2 K"
        (by decide)
  · have h :=
      (claim_parse_aria_label (some "views: 1.2 K total")).2.1
        "views: 1.2 K total" rfl (by decide)
    rw [h]
    decide
